import Mathlib

/-
Shallow embedding of the COBS library (cobs.go, package cobs).

Bytes are modelled as Nat; every byte produced by the code stays below 256
when the inputs do, and arithmetic that could overflow in Go (the length
byte increments, the XOR masking) is bounded by construction, so no modular
reduction is required.

The io.Writer sink of the Encoder is modelled as the list of chunks passed
to w.Write, in order: Encoder.finish performs one Write per group and one
extra Write for the close delimiter.  The io.Writer sink of the Decoder is
modelled as the flat list of bytes written (the Decoder writes byte by
byte).  The one-shot helpers use a bytes.Buffer sink, whose Write never
fails, so sink errors do not arise in the one-shot paths that the claims
are about.
-/

namespace Cobs

/-- Delimiter is the default packet framing delimiter (0x00). -/
def Delimiter : Nat := 0x00

/-- config mirrors the config struct: sentinel byte, delimiterOnClose, reduced. -/
structure Config where
  sentinel : Nat
  delimiterOnClose : Bool
  reduced : Bool
deriving DecidableEq, Repr

/-- maxCode gives the largest legal length byte for a delimiter, as in the
historical direct-comparison variant of the repository: 0xFE if the
delimiter is 0xFF, else 0xFF. -/
def maxCode (delimiter : Nat) : Nat :=
  if delimiter = 0xff then 0xfe else 0xff

/-- EncState is the Encoder state: the chunks already passed to w.Write,
and the in-progress group buffer e.buf, kept as its head (the running
length byte, code) and its tail (the data bytes). -/
structure EncState where
  out : List (List Nat)
  code : Nat
  data : List Nat
deriving DecidableEq, Repr

/-- encInit is the state made by NewEncoder: no output, buf = [1]. -/
def encInit : EncState := ⟨[], 1, []⟩

/-- encFinish mirrors Encoder.finish: optionally apply the COBS/R shrink
(only on close, in reduced mode, when the buffer holds data and the
length byte is smaller than the last data byte), XOR the group with the
sentinel when it is not the default delimiter, write the group, write the
sentinel when closing with delimiterOnClose, and reset the buffer. -/
def encFinish (cfg : Config) (close : Bool) (e : EncState) : EncState :=
  let buf : List Nat :=
    match close && cfg.reduced, e.data.getLast? with
    | true, some last =>
        if e.code < last then last :: e.data.dropLast else e.code :: e.data
    | _, _ => e.code :: e.data
  let buf := if cfg.sentinel ≠ Delimiter then buf.map (fun b => b ^^^ cfg.sentinel) else buf
  let out := e.out ++ [buf]
  let out := if close ∧ cfg.delimiterOnClose then out ++ [[cfg.sentinel]] else out
  ⟨out, 1, []⟩

/-- encWriteByte mirrors Encoder.WriteByte: flush when the group is full
(length byte 0xff), flush when the payload byte equals the fixed default
delimiter 0x00, otherwise append the byte and bump the length byte. -/
def encWriteByte (cfg : Config) (e : EncState) (c : Nat) : EncState :=
  let e := if e.code = 0xff then encFinish cfg false e else e
  if c = Delimiter then encFinish cfg false e
  else ⟨e.out, e.code + 1, e.data ++ [c]⟩

/-- encWrite mirrors Encoder.Write: WriteByte over each byte (the sink
never fails here, so the loop always runs to the end). -/
def encWrite (cfg : Config) (e : EncState) : List Nat → EncState
  | [] => e
  | c :: cs => encWrite cfg (encWriteByte cfg e c) cs

/-- encChunks runs the one-shot Encode and returns the chunks written to
the sink, one list per w.Write call. -/
def encChunks (x : List Nat) (cfg : Config) : List (List Nat) :=
  (encFinish cfg true (encWrite cfg encInit x)).out

/-- Encode mirrors the one-shot Encode: drive the Encoder over the data,
Close, and return the accumulated sink bytes. -/
def Encode (x : List Nat) (cfg : Config) : List Nat :=
  (encChunks x cfg).flatten

/-- Derr enumerates the error values the Decoder can produce: EOD,
ErrUnexpectedEOD and ErrIncompleteFrame. -/
inductive Derr where
  | eod
  | unexpectedEOD
  | incompleteFrame
deriving DecidableEq, Repr

/-- DecState is the Decoder state: the bytes written to the sink, the code
field and the codeIndex field. -/
structure DecState where
  out : List Nat
  code : Nat
  codeIndex : Nat
deriving DecidableEq, Repr

/-- decInit is the state made by NewDecoder: code = 0xff, codeIndex = 0. -/
def decInit : DecState := ⟨[], 0xff, 0⟩

/-- flushReduced mirrors Decoder.flushReduced: in reduced mode with a
group mid-flight, write the stored code byte and clear codeIndex. -/
def flushReduced (cfg : Config) (d : DecState) : DecState :=
  if cfg.reduced ∧ d.codeIndex > 0 then ⟨d.out ++ [d.code], d.code, 0⟩ else d

/-- decWriteByte mirrors Decoder.WriteByte: XOR the incoming byte with the
sentinel, then run the fixed state machine on the result, signalling EOD
or ErrUnexpectedEOD when the XORed byte is the default delimiter. -/
def decWriteByte (cfg : Config) (d : DecState) (c0 : Nat) : DecState × Option Derr :=
  let c := c0 ^^^ cfg.sentinel
  if c = Delimiter then
    let d := flushReduced cfg d
    if d.codeIndex ≠ 0 then (d, some .unexpectedEOD)
    else (⟨d.out, 0xff, d.codeIndex⟩, some .eod)
  else if d.codeIndex > 0 then
    (⟨d.out ++ [c], d.code, d.codeIndex - 1⟩, none)
  else
    let d := if d.code ≠ 0xff then ⟨d.out ++ [Delimiter], d.code, d.codeIndex⟩ else d
    (⟨d.out, c, c - 1⟩, none)

/-- decWrite mirrors Decoder.Write: WriteByte over each byte, stopping at
the first non-nil result (EOD included). -/
def decWrite (cfg : Config) (d : DecState) : List Nat → DecState × Option Derr
  | [] => (d, none)
  | c :: cs =>
    match decWriteByte cfg d c with
    | (d', none) => decWrite cfg d' cs
    | (d', some e) => (d', some e)

/-- NeedsMoreData mirrors Decoder.NeedsMoreData. -/
def NeedsMoreData (d : DecState) : Bool := d.codeIndex ≠ 0

/-- decClose mirrors Decoder.Close: flush a pending reduced byte, then
fail with ErrIncompleteFrame when more data is needed. -/
def decClose (cfg : Config) (d : DecState) : DecState × Option Derr :=
  let d := flushReduced cfg d
  if NeedsMoreData d then (d, some .incompleteFrame) else (d, none)

/-- Decode mirrors the one-shot Decode: drive the Decoder over the data,
returning the sink bytes and the first error if Write stops early,
otherwise Close and return the sink bytes with the Close result. -/
def Decode (y : List Nat) (cfg : Config) : List Nat × Option Derr :=
  match decWrite cfg decInit y with
  | (d, some e) => (d.out, some e)
  | (d, none) => ((decClose cfg d).1.out, (decClose cfg d).2)

/-- pendingDelim is the implied delimiter byte the decoder still owes after a
completed group: one Delimiter unless the previous group was full (code 0xff). -/
def pendingDelim (code : Nat) : List Nat :=
  if code ≠ 0xff then [Delimiter] else []

/-- GoodChunk describes the shape of every group the sentinel-0 encoder
writes: a length byte n in [1, 255] followed by exactly n - 1 nonzero
data bytes. -/
def GoodChunk (g : List Nat) : Prop :=
  ∃ n ds, g = n :: ds ∧ 0 < n ∧ n ≤ 255 ∧ ds.length + 1 = n ∧ ∀ b ∈ ds, b ≠ 0

lemma map_xor_map_xor (s : Nat) (l : List Nat) :
    (l.map (· ^^^ s)).map (· ^^^ s) = l := by
  rw [List.map_map]
  simp [Function.comp_def, Nat.xor_cancel_right]

lemma encFinish_xor (s : Nat) (dc r : Bool) (close : Bool) (out : List (List Nat))
    (c : Nat) (dt : List Nat) :
    encFinish ⟨s, dc, r⟩ close ⟨out.map (List.map (· ^^^ s)), c, dt⟩ =
      ⟨((encFinish ⟨0, dc, r⟩ close ⟨out, c, dt⟩).out).map (List.map (· ^^^ s)),
        (encFinish ⟨0, dc, r⟩ close ⟨out, c, dt⟩).code,
        (encFinish ⟨0, dc, r⟩ close ⟨out, c, dt⟩).data⟩ := by
  by_cases hs : s = 0
  · subst hs
    simp [encFinish]
  · unfold encFinish
    simp only [Delimiter]
    cases hcr : close && r <;> cases hl : dt.getLast? <;>
      by_cases hdl : close ∧ dc = true <;>
      simp [hs, hdl, Nat.zero_xor, List.map_append]

lemma encWriteByte_xor (s : Nat) (dc r : Bool) (out : List (List Nat))
    (c : Nat) (dt : List Nat) (b : Nat) :
    encWriteByte ⟨s, dc, r⟩ ⟨out.map (List.map (· ^^^ s)), c, dt⟩ b =
      ⟨((encWriteByte ⟨0, dc, r⟩ ⟨out, c, dt⟩ b).out).map (List.map (· ^^^ s)),
        (encWriteByte ⟨0, dc, r⟩ ⟨out, c, dt⟩ b).code,
        (encWriteByte ⟨0, dc, r⟩ ⟨out, c, dt⟩ b).data⟩ := by
  by_cases h255 : c = 0xff <;> by_cases hb : b = Delimiter <;>
    simp [encWriteByte, h255, hb, encFinish_xor]

lemma encWrite_xor (s : Nat) (dc r : Bool) (x : List Nat) :
    ∀ (out : List (List Nat)) (c : Nat) (dt : List Nat),
    encWrite ⟨s, dc, r⟩ ⟨out.map (List.map (· ^^^ s)), c, dt⟩ x =
      ⟨((encWrite ⟨0, dc, r⟩ ⟨out, c, dt⟩ x).out).map (List.map (· ^^^ s)),
        (encWrite ⟨0, dc, r⟩ ⟨out, c, dt⟩ x).code,
        (encWrite ⟨0, dc, r⟩ ⟨out, c, dt⟩ x).data⟩ := by
  induction x with
  | nil => intro out c dt; rfl
  | cons b bs ih =>
    intro out c dt
    rw [encWrite, encWriteByte_xor,
      ih ((encWriteByte ⟨0, dc, r⟩ ⟨out, c, dt⟩ b).out)]
    rw [encWrite]

lemma encChunks_xor (s : Nat) (dc r : Bool) (x : List Nat) :
    encChunks x ⟨s, dc, r⟩ = (encChunks x ⟨0, dc, r⟩).map (List.map (· ^^^ s)) := by
  unfold encChunks encInit
  have h0 : (⟨[], 1, []⟩ : EncState) =
      ⟨(([] : List (List Nat)).map (List.map (· ^^^ s))), 1, []⟩ := rfl
  rw [h0, encWrite_xor, encFinish_xor]
  rfl

lemma Encode_xor (s : Nat) (dc r : Bool) (x : List Nat) :
    Encode x ⟨s, dc, r⟩ = (Encode x ⟨0, dc, r⟩).map (· ^^^ s) := by
  unfold Encode
  rw [encChunks_xor, ← List.map_flatten]

lemma flushReduced_cfg (s s' : Nat) (dc dc' r : Bool) (d : DecState) :
    flushReduced ⟨s, dc, r⟩ d = flushReduced ⟨s', dc', r⟩ d := rfl

lemma decWriteByte_xor (s : Nat) (dc r : Bool) (d : DecState) (c0 : Nat) :
    decWriteByte ⟨s, dc, r⟩ d c0 = decWriteByte ⟨0, dc, r⟩ d (c0 ^^^ s) := by
  unfold decWriteByte
  simp only [Nat.xor_zero]
  rfl

lemma decWrite_xor (s : Nat) (dc r : Bool) (y : List Nat) :
    ∀ d : DecState,
    decWrite ⟨s, dc, r⟩ d y = decWrite ⟨0, dc, r⟩ d (y.map (· ^^^ s)) := by
  induction y with
  | nil => intro d; rfl
  | cons b bs ih =>
    intro d
    rw [List.map_cons, decWrite, decWrite, decWriteByte_xor]
    cases h : decWriteByte ⟨0, dc, r⟩ d (b ^^^ s) with
    | mk d' e =>
      cases e with
      | none => simp only [ih]
      | some e => rfl

lemma decClose_cfg (s s' : Nat) (dc dc' : Bool) (r : Bool) (d : DecState) :
    decClose ⟨s, dc, r⟩ d = decClose ⟨s', dc', r⟩ d := rfl

lemma Decode_xor (s : Nat) (dc r : Bool) (y : List Nat) :
    Decode y ⟨s, dc, r⟩ = Decode (y.map (· ^^^ s)) ⟨0, dc, r⟩ := by
  unfold Decode
  rw [decWrite_xor]
  simp only [decClose_cfg s 0 dc dc]

lemma encFinish_zero_false (dc r : Bool) (e : EncState) :
    encFinish ⟨0, dc, r⟩ false e = ⟨e.out ++ [e.code :: e.data], 1, []⟩ := by
  unfold encFinish
  cases hl : e.data.getLast? <;> simp [Delimiter]

lemma encWriteByte_zero (dc r : Bool) (e : EncState) (b : Nat) :
    encWriteByte ⟨0, dc, r⟩ e b =
      if e.code = 0xff then
        (if b = 0 then ⟨e.out ++ [e.code :: e.data] ++ [[1]], 1, []⟩
         else ⟨e.out ++ [e.code :: e.data], 2, [b]⟩)
      else
        (if b = 0 then ⟨e.out ++ [e.code :: e.data], 1, []⟩
         else ⟨e.out, e.code + 1, e.data ++ [b]⟩) := by
  unfold encWriteByte
  by_cases h255 : e.code = 0xff <;> by_cases hb : b = 0 <;>
    simp [h255, hb, encFinish_zero_false, Delimiter]

lemma encWrite_append (cfg : Config) (x1 x2 : List Nat) :
    ∀ e : EncState, encWrite cfg e (x1 ++ x2) = encWrite cfg (encWrite cfg e x1) x2 := by
  induction x1 with
  | nil => intro e; rfl
  | cons b bs ih => intro e; rw [List.cons_append, encWrite, encWrite, ih]

lemma encWriteByte_out0 (dc r : Bool) (out : List (List Nat)) (c : Nat)
    (dt : List Nat) (b : Nat) :
    encWriteByte ⟨0, dc, r⟩ ⟨out, c, dt⟩ b =
      ⟨out ++ (encWriteByte ⟨0, dc, r⟩ ⟨[], c, dt⟩ b).out,
        (encWriteByte ⟨0, dc, r⟩ ⟨[], c, dt⟩ b).code,
        (encWriteByte ⟨0, dc, r⟩ ⟨[], c, dt⟩ b).data⟩ := by
  rw [encWriteByte_zero, encWriteByte_zero]
  by_cases h255 : c = 0xff <;> by_cases hb : b = 0 <;> simp [h255, hb]

lemma encWrite_out0 (dc r : Bool) (x : List Nat) :
    ∀ (out : List (List Nat)) (c : Nat) (dt : List Nat),
    encWrite ⟨0, dc, r⟩ ⟨out, c, dt⟩ x =
      ⟨out ++ (encWrite ⟨0, dc, r⟩ ⟨[], c, dt⟩ x).out,
        (encWrite ⟨0, dc, r⟩ ⟨[], c, dt⟩ x).code,
        (encWrite ⟨0, dc, r⟩ ⟨[], c, dt⟩ x).data⟩ := by
  induction x with
  | nil => intro out c dt; simp [encWrite]
  | cons b bs ih =>
    intro out c dt
    rw [encWrite, encWrite, encWriteByte_out0,
      ih ((encWriteByte ⟨0, dc, r⟩ ⟨[], c, dt⟩ b).out),
      ih (out ++ (encWriteByte ⟨0, dc, r⟩ ⟨[], c, dt⟩ b).out)]
    simp [List.append_assoc]

lemma encWrite_cfg0 (dc r : Bool) (x : List Nat) :
    ∀ e : EncState, encWrite ⟨0, dc, r⟩ e x = encWrite ⟨0, false, false⟩ e x := by
  induction x with
  | nil => intro e; rfl
  | cons b bs ih =>
    intro e
    rw [encWrite, encWrite, ih, encWriteByte_zero, encWriteByte_zero]

lemma decWriteByte_zero_header (dc r : Bool) (out : List Nat) (dcode : Nat)
    (n : Nat) (hn : n ≠ 0) :
    decWriteByte ⟨0, dc, r⟩ ⟨out, dcode, 0⟩ n =
      (⟨out ++ pendingDelim dcode, n, n - 1⟩, none) := by
  unfold decWriteByte pendingDelim
  by_cases h : dcode = 0xff <;> simp [hn, h, Delimiter]

lemma decWriteByte_zero_data (dc r : Bool) (out : List Nat) (dcode : Nat)
    (n b : Nat) (hb : b ≠ 0) (hn : 0 < n) :
    decWriteByte ⟨0, dc, r⟩ ⟨out, dcode, n⟩ b =
      (⟨out ++ [b], dcode, n - 1⟩, none) := by
  unfold decWriteByte
  simp [hb, hn, Delimiter]

lemma decWrite_append (cfg : Config) (y1 y2 : List Nat) :
    ∀ d d' : DecState, decWrite cfg d y1 = (d', none) →
    decWrite cfg d (y1 ++ y2) = decWrite cfg d' y2 := by
  induction y1 with
  | nil =>
    intro d d' h
    simp only [decWrite] at h
    cases h
    rfl
  | cons b bs ih =>
    intro d d' h
    rw [decWrite] at h
    rw [List.cons_append, decWrite]
    cases hb : decWriteByte cfg d b with
    | mk d1 e =>
      cases e with
      | none =>
        rw [hb] at h
        exact ih d1 d' h
      | some e =>
        rw [hb] at h
        cases h

lemma dec_run (dc r : Bool) (ds : List Nat) :
    ∀ (out : List Nat) (code n : Nat), (∀ b ∈ ds, b ≠ 0) → ds.length ≤ n →
    decWrite ⟨0, dc, r⟩ ⟨out, code, n⟩ ds = (⟨out ++ ds, code, n - ds.length⟩, none) := by
  induction ds with
  | nil => intro out code n _ _; simp [decWrite]
  | cons b bs ih =>
    intro out code n hnz hlen
    have hb : b ≠ 0 := hnz b (List.mem_cons_self b bs)
    have hn : 0 < n := by simp at hlen; omega
    rw [decWrite, decWriteByte_zero_data dc r out code n b hb hn]
    show decWrite ⟨0, dc, r⟩ ⟨out ++ [b], code, n - 1⟩ bs = _
    rw [ih (out ++ [b]) code (n - 1) (fun c hc => hnz c (List.mem_cons_of_mem b hc)) (by simp at hlen ⊢; omega)]
    simp at hlen
    have harith : n - 1 - bs.length = n - (bs.length + 1) := by omega
    simp [List.append_assoc, harith]

lemma dec_group (dc r : Bool) (n : Nat) (ds : List Nat) (out : List Nat) (dcode : Nat)
    (hn : n ≠ 0) (hds : ∀ b ∈ ds, b ≠ 0) (hlen : ds.length ≤ n - 1) :
    decWrite ⟨0, dc, r⟩ ⟨out, dcode, 0⟩ (n :: ds) =
      (⟨out ++ pendingDelim dcode ++ ds, n, (n - 1) - ds.length⟩, none) := by
  rw [decWrite, decWriteByte_zero_header dc r out dcode n hn]
  show decWrite ⟨0, dc, r⟩ ⟨out ++ pendingDelim dcode, n, n - 1⟩ ds = _
  rw [dec_run dc r ds (out ++ pendingDelim dcode) n (n - 1) hds hlen]

lemma pendingDelim_ff : pendingDelim 0xff = [] := by simp [pendingDelim]

lemma pendingDelim_ne (c : Nat) (h : c ≠ 0xff) : pendingDelim c = [0] := by
  simp [pendingDelim, h, Delimiter]

/-- round_main is the central invariant: decoding the groups the encoder has
flushed so far leaves the decoder one pending implied delimiter and the
current partial group away from the consumed payload. -/
lemma round_main (r r' dc dc' : Bool) (x : List Nat) :
    ∀ (code : Nat) (dt : List Nat) (dcode : Nat) (dout : List Nat),
    code = dt.length + 1 → code ≤ 255 → (∀ b ∈ dt, b ≠ 0) →
    ∃ d' : DecState,
      decWrite ⟨0, dc', r'⟩ ⟨dout, dcode, 0⟩
          (encWrite ⟨0, dc, r⟩ ⟨[], code, dt⟩ x).out.flatten = (d', none) ∧
      d'.codeIndex = 0 ∧
      d'.out ++ pendingDelim d'.code ++ (encWrite ⟨0, dc, r⟩ ⟨[], code, dt⟩ x).data
        = dout ++ pendingDelim dcode ++ dt ++ x ∧
      (encWrite ⟨0, dc, r⟩ ⟨[], code, dt⟩ x).code
        = (encWrite ⟨0, dc, r⟩ ⟨[], code, dt⟩ x).data.length + 1 ∧
      (encWrite ⟨0, dc, r⟩ ⟨[], code, dt⟩ x).code ≤ 255 ∧
      (∀ b ∈ (encWrite ⟨0, dc, r⟩ ⟨[], code, dt⟩ x).data, b ≠ 0) := by
  induction x with
  | nil =>
    intro code dt dcode dout h1 h2 h3
    exact ⟨⟨dout, dcode, 0⟩, by simp [encWrite, decWrite], rfl,
      by simp [encWrite], by simp [encWrite, h1], by simp [encWrite, h2],
      by simp [encWrite]; exact h3⟩
  | cons b bs ih =>
    intro code dt dcode dout h1 h2 h3
    rw [encWrite, encWriteByte_zero]
    by_cases h255 : code = 0xff <;> by_cases hb : b = 0
    · -- full group flush, then delimiter flush: two groups emitted
      simp only [h255, hb, if_true, ite_true, List.nil_append]
      rw [encWrite_out0]
      have hg1 : decWrite ⟨0, dc', r'⟩ ⟨dout, dcode, 0⟩ ((0xff : Nat) :: dt)
          = (⟨dout ++ pendingDelim dcode ++ dt, 0xff, 0⟩, none) := by
        have hlen : dt.length ≤ 0xff - 1 := by omega
        have := dec_group dc' r' 0xff dt dout dcode (by norm_num) h3 hlen
        rw [this]
        have : (0xff : Nat) - 1 - dt.length = 0 := by omega
        rw [this]
      have hg2 : decWrite ⟨0, dc', r'⟩ ⟨dout ++ pendingDelim dcode ++ dt, 0xff, 0⟩ [(1 : Nat)]
          = (⟨dout ++ pendingDelim dcode ++ dt, 1, 0⟩, none) := by
        have := dec_group dc' r' 1 [] (dout ++ pendingDelim dcode ++ dt) 0xff
          (by norm_num) (by simp) (by simp)
        simpa [pendingDelim_ff] using this
      obtain ⟨d', hw, hci, heq, hc1, hc2, hc3⟩ :=
        ih 1 [] 1 (dout ++ pendingDelim dcode ++ dt) rfl (by norm_num) (by simp)
      refine ⟨d', ?_, hci, ?_, hc1, hc2, hc3⟩
      · show decWrite ⟨0, dc', r'⟩ ⟨dout, dcode, 0⟩
            (((0xff : Nat) :: dt) ++ ([(1 : Nat)]
              ++ (encWrite ⟨0, dc, r⟩ ⟨[], 1, []⟩ bs).out.flatten)) = (d', none)
        rw [decWrite_append _ _ _ _ _ hg1, decWrite_append _ _ _ _ _ hg2]
        exact hw
      · rw [heq]
        simp [pendingDelim_ne 1 (by norm_num), List.append_assoc, Delimiter]
    · -- full group flush, then append b
      simp only [h255, hb, if_true, ite_true, if_false, ite_false, List.nil_append]
      rw [encWrite_out0]
      have hg1 : decWrite ⟨0, dc', r'⟩ ⟨dout, dcode, 0⟩ ((0xff : Nat) :: dt)
          = (⟨dout ++ pendingDelim dcode ++ dt, 0xff, 0⟩, none) := by
        have hlen : dt.length ≤ 0xff - 1 := by omega
        have := dec_group dc' r' 0xff dt dout dcode (by norm_num) h3 hlen
        rw [this]
        have : (0xff : Nat) - 1 - dt.length = 0 := by omega
        rw [this]
      obtain ⟨d', hw, hci, heq, hc1, hc2, hc3⟩ :=
        ih 2 [b] 0xff (dout ++ pendingDelim dcode ++ dt) rfl (by norm_num)
          (by intro c hc; simp at hc; subst hc; exact hb)
      refine ⟨d', ?_, hci, ?_, hc1, hc2, hc3⟩
      · show decWrite ⟨0, dc', r'⟩ ⟨dout, dcode, 0⟩
            (((0xff : Nat) :: dt)
              ++ (encWrite ⟨0, dc, r⟩ ⟨[], 2, [b]⟩ bs).out.flatten) = (d', none)
        rw [decWrite_append _ _ _ _ _ hg1]
        exact hw
      · rw [heq]
        simp [pendingDelim_ff, List.append_assoc]
    · -- delimiter byte: flush the current group
      simp only [h255, hb, if_true, ite_true, if_false, ite_false, List.nil_append]
      rw [encWrite_out0]
      have hg1 : decWrite ⟨0, dc', r'⟩ ⟨dout, dcode, 0⟩ (code :: dt)
          = (⟨dout ++ pendingDelim dcode ++ dt, code, 0⟩, none) := by
        have hlen : dt.length ≤ code - 1 := by omega
        have := dec_group dc' r' code dt dout dcode (by omega) h3 hlen
        rw [this]
        have : code - 1 - dt.length = 0 := by omega
        rw [this]
      obtain ⟨d', hw, hci, heq, hc1, hc2, hc3⟩ :=
        ih 1 [] code (dout ++ pendingDelim dcode ++ dt) rfl (by norm_num) (by simp)
      refine ⟨d', ?_, hci, ?_, hc1, hc2, hc3⟩
      · show decWrite ⟨0, dc', r'⟩ ⟨dout, dcode, 0⟩
            ((code :: dt)
              ++ (encWrite ⟨0, dc, r⟩ ⟨[], 1, []⟩ bs).out.flatten) = (d', none)
        rw [decWrite_append _ _ _ _ _ hg1]
        exact hw
      · rw [heq]
        simp [pendingDelim_ne code h255, List.append_assoc, Delimiter]
    · -- plain data byte: append to the group
      simp only [h255, hb, if_true, ite_true, if_false, ite_false, List.nil_append]
      obtain ⟨d', hw, hci, heq, hc1, hc2, hc3⟩ :=
        ih (code + 1) (dt ++ [b]) dcode dout (by simp [h1]) (by omega)
          (by intro c hc; rcases List.mem_append.mp hc with h | h
              · exact h3 c h
              · simp at h; subst h; exact hb)
      refine ⟨d', hw, hci, ?_, hc1, hc2, hc3⟩
      rw [heq]
      simp [List.append_assoc]

lemma encFinish_zero_true_nored (dc : Bool) (e : EncState) :
    encFinish ⟨0, dc, false⟩ true e =
      ⟨(if dc then e.out ++ [e.code :: e.data] ++ [[0]]
        else e.out ++ [e.code :: e.data]), 1, []⟩ := by
  unfold encFinish
  cases hl : e.data.getLast? <;> cases dc <;> simp [Delimiter]

lemma encFinish_zero_red_none (e : EncState) (h : e.data.getLast? = none) :
    encFinish ⟨0, false, true⟩ true e = ⟨e.out ++ [e.code :: e.data], 1, []⟩ := by
  unfold encFinish
  rw [h]
  simp [Delimiter]

lemma encFinish_zero_red_lt (e : EncState) (last : Nat)
    (h : e.data.getLast? = some last) (hlt : e.code < last) :
    encFinish ⟨0, false, true⟩ true e = ⟨e.out ++ [last :: e.data.dropLast], 1, []⟩ := by
  unfold encFinish
  rw [h]
  simp [Delimiter, hlt]

lemma encFinish_zero_red_ge (e : EncState) (last : Nat)
    (h : e.data.getLast? = some last) (hge : ¬ e.code < last) :
    encFinish ⟨0, false, true⟩ true e = ⟨e.out ++ [e.code :: e.data], 1, []⟩ := by
  unfold encFinish
  rw [h]
  simp [Delimiter, hge]

/-- dec_enc0 drives the sentinel-0 decoder over a full sentinel-0 encoding:
all bytes are consumed without a signal and the sink holds the payload. -/
lemma dec_enc0 (x : List Nat) :
    ∃ dcode : Nat, decWrite ⟨0, false, false⟩ decInit (Encode x ⟨0, false, false⟩)
      = (⟨x, dcode, 0⟩, none) := by
  obtain ⟨d', hw, hci, heq, hc1, hc2, hc3⟩ :=
    round_main false false false false x 1 [] 0xff [] rfl (by norm_num) (by simp)
  obtain ⟨o, dcd, ci⟩ := d'
  simp only at hci heq
  subst hci
  refine ⟨(encWrite ⟨0, false, false⟩ ⟨[], 1, []⟩ x).code, ?_⟩
  unfold Encode encChunks encInit
  rw [encFinish_zero_true_nored]
  show decWrite ⟨0, false, false⟩ ⟨[], 0xff, 0⟩
    (((encWrite ⟨0, false, false⟩ ⟨[], 1, []⟩ x).out
      ++ [(encWrite ⟨0, false, false⟩ ⟨[], 1, []⟩ x).code
            :: (encWrite ⟨0, false, false⟩ ⟨[], 1, []⟩ x).data]).flatten) = _
  rw [List.flatten_append, decWrite_append _ _ _ _ _ hw]
  have hone : ([(encWrite ⟨0, false, false⟩ ⟨[], 1, []⟩ x).code
      :: (encWrite ⟨0, false, false⟩ ⟨[], 1, []⟩ x).data] : List (List Nat)).flatten
      = (encWrite ⟨0, false, false⟩ ⟨[], 1, []⟩ x).code
          :: (encWrite ⟨0, false, false⟩ ⟨[], 1, []⟩ x).data := by simp
  rw [hone, dec_group false false _ _ o dcd (by omega) hc3 (by omega)]
  have hz : (encWrite ⟨0, false, false⟩ ⟨[], 1, []⟩ x).code - 1
      - (encWrite ⟨0, false, false⟩ ⟨[], 1, []⟩ x).data.length = 0 := by omega
  rw [hz]
  have hx : o ++ pendingDelim dcd ++ (encWrite ⟨0, false, false⟩ ⟨[], 1, []⟩ x).data = x := by
    rw [heq]
    simp [pendingDelim_ff]
  rw [hx]

/-- roundtrip0 is the sentinel-0 round trip through the one-shot helpers. -/
lemma roundtrip0 (x : List Nat) :
    Decode (Encode x ⟨0, false, false⟩) ⟨0, false, false⟩ = (x, none) := by
  obtain ⟨dcode, h⟩ := dec_enc0 x
  unfold Decode
  rw [h]
  show ((decClose ⟨0, false, false⟩ ⟨x, dcode, 0⟩).1.out,
    (decClose ⟨0, false, false⟩ ⟨x, dcode, 0⟩).2) = (x, none)
  simp [decClose, flushReduced, NeedsMoreData]

lemma decClose_ci0 (s : Nat) (dc r : Bool) (d : DecState) (h : d.codeIndex = 0) :
    decClose ⟨s, dc, r⟩ d = (d, none) := by
  unfold decClose flushReduced NeedsMoreData
  simp [h]

lemma decClose_red_pos (s : Nat) (dc : Bool) (d : DecState) (h : 0 < d.codeIndex) :
    decClose ⟨s, dc, true⟩ d = (⟨d.out ++ [d.code], d.code, 0⟩, none) := by
  unfold decClose flushReduced NeedsMoreData
  simp [h]

/-- roundtripR is the sentinel-0 COBS/R round trip: the reduced decoder,
closed at end of input, undoes the reduced encoder. -/
lemma roundtripR (x : List Nat) :
    Decode (Encode x ⟨0, false, true⟩) ⟨0, false, true⟩ = (x, none) := by
  obtain ⟨d', hw, hci, heq, hc1, hc2, hc3⟩ :=
    round_main true true false false x 1 [] 0xff [] rfl (by norm_num) (by simp)
  obtain ⟨o, dcd, ci⟩ := d'
  simp only at hci heq
  subst hci
  simp only [pendingDelim_ff, List.nil_append, List.append_nil] at heq
  unfold Decode Encode encChunks encInit
  set E := encWrite ⟨0, false, true⟩ ⟨[], 1, []⟩ x with hE
  have hd : decInit = (⟨[], 0xff, 0⟩ : DecState) := rfl
  rcases hl : E.data.getLast? with _ | last
  · -- empty final data: plain close group, decoder ends clean
    rw [encFinish_zero_red_none _ hl]
    have harg : (⟨E.out ++ [E.code :: E.data], 1, []⟩ : EncState).out.flatten
        = E.out.flatten ++ (E.code :: E.data) := by simp
    rw [harg, hd]
    have h1 : decWrite ⟨0, false, true⟩ ⟨[], 0xff, 0⟩
        (E.out.flatten ++ (E.code :: E.data))
        = (⟨o ++ pendingDelim dcd ++ E.data, E.code, 0⟩, none) := by
      rw [decWrite_append _ _ _ _ _ hw,
        dec_group false true E.code E.data o dcd (by omega) hc3 (by omega)]
      rw [show E.code - 1 - E.data.length = 0 from by omega]
    rw [h1]
    show ((decClose ⟨0, false, true⟩ ⟨o ++ pendingDelim dcd ++ E.data, E.code, 0⟩).1.out,
      (decClose ⟨0, false, true⟩ ⟨o ++ pendingDelim dcd ++ E.data, E.code, 0⟩).2) = (x, none)
    rw [decClose_ci0 0 false true _ rfl]
    simpa using heq
  · by_cases hlt : E.code < last
    · -- COBS/R shrink: the length byte carries the dropped last data byte
      rw [encFinish_zero_red_lt _ last hl hlt]
      have hmem : last ∈ E.data := List.mem_of_getLast?_eq_some hl
      have hlast0 : last ≠ 0 := hc3 last hmem
      have hdne : E.data ≠ [] := List.ne_nil_of_mem hmem
      have hdlen : 0 < E.data.length := List.length_pos.mpr hdne
      have harg : (⟨E.out ++ [last :: E.data.dropLast], 1, []⟩ : EncState).out.flatten
          = E.out.flatten ++ (last :: E.data.dropLast) := by simp
      rw [harg, hd]
      have hds' : ∀ b ∈ E.data.dropLast, b ≠ 0 :=
        fun b hb => hc3 b (List.dropLast_subset _ hb)
      have hlen' : E.data.dropLast.length ≤ last - 1 := by
        rw [List.length_dropLast]
        omega
      have h1 : decWrite ⟨0, false, true⟩ ⟨[], 0xff, 0⟩
          (E.out.flatten ++ (last :: E.data.dropLast))
          = (⟨o ++ pendingDelim dcd ++ E.data.dropLast, last,
              last - 1 - E.data.dropLast.length⟩, none) := by
        rw [decWrite_append _ _ _ _ _ hw,
          dec_group false true last E.data.dropLast o dcd hlast0 hds' hlen']
      rw [h1]
      show ((decClose ⟨0, false, true⟩ ⟨o ++ pendingDelim dcd ++ E.data.dropLast, last,
          last - 1 - E.data.dropLast.length⟩).1.out,
        (decClose ⟨0, false, true⟩ ⟨o ++ pendingDelim dcd ++ E.data.dropLast, last,
          last - 1 - E.data.dropLast.length⟩).2) = (x, none)
      have hcipos : 0 < last - 1 - E.data.dropLast.length := by
        rw [List.length_dropLast]
        omega
      rw [decClose_red_pos 0 false _ hcipos]
      have hdl : E.data.dropLast ++ [last] = E.data :=
        List.dropLast_append_getLast? last (by simp [hl])
      show (o ++ pendingDelim dcd ++ E.data.dropLast ++ [last], (none : Option Derr)) = (x, none)
      rw [List.append_assoc, hdl]
      simpa using heq
    · -- no shrink: the length byte is kept, decoder ends clean
      rw [encFinish_zero_red_ge _ last hl hlt]
      have harg : (⟨E.out ++ [E.code :: E.data], 1, []⟩ : EncState).out.flatten
          = E.out.flatten ++ (E.code :: E.data) := by simp
      rw [harg, hd]
      have h1 : decWrite ⟨0, false, true⟩ ⟨[], 0xff, 0⟩
          (E.out.flatten ++ (E.code :: E.data))
          = (⟨o ++ pendingDelim dcd ++ E.data, E.code, 0⟩, none) := by
        rw [decWrite_append _ _ _ _ _ hw,
          dec_group false true E.code E.data o dcd (by omega) hc3 (by omega)]
        rw [show E.code - 1 - E.data.length = 0 from by omega]
      rw [h1]
      show ((decClose ⟨0, false, true⟩ ⟨o ++ pendingDelim dcd ++ E.data, E.code, 0⟩).1.out,
        (decClose ⟨0, false, true⟩ ⟨o ++ pendingDelim dcd ++ E.data, E.code, 0⟩).2) = (x, none)
      rw [decClose_ci0 0 false true _ rfl]
      simpa using heq

/-- encode_reduced_len: the COBS/R close can only shorten the final group. -/
lemma encode_reduced_len (x : List Nat) :
    (Encode x ⟨0, false, true⟩).length ≤ (Encode x ⟨0, false, false⟩).length := by
  unfold Encode encChunks encInit
  rw [encWrite_cfg0 false true]
  set E := encWrite ⟨0, false, false⟩ ⟨[], 1, []⟩ x with hE
  rw [encFinish_zero_true_nored]
  rcases hl : E.data.getLast? with _ | last
  · rw [encFinish_zero_red_none _ hl]
    simp
  · by_cases hlt : E.code < last
    · rw [encFinish_zero_red_lt _ last hl hlt]
      simp [List.length_dropLast]
    · rw [encFinish_zero_red_ge _ last hl hlt]
      simp

/-- encWrite_good: every chunk the sentinel-0 encoder has written between
flushes is a well-formed group, and the running buffer stays well formed. -/
lemma encWrite_good (x : List Nat) :
    ∀ (out : List (List Nat)) (code : Nat) (dt : List Nat),
    code = dt.length + 1 → code ≤ 255 → (∀ b ∈ dt, b ≠ 0) →
    (∀ g ∈ out, GoodChunk g) →
    (∀ g ∈ (encWrite ⟨0, false, false⟩ ⟨out, code, dt⟩ x).out, GoodChunk g) ∧
    (encWrite ⟨0, false, false⟩ ⟨out, code, dt⟩ x).code
      = (encWrite ⟨0, false, false⟩ ⟨out, code, dt⟩ x).data.length + 1 ∧
    (encWrite ⟨0, false, false⟩ ⟨out, code, dt⟩ x).code ≤ 255 ∧
    (∀ b ∈ (encWrite ⟨0, false, false⟩ ⟨out, code, dt⟩ x).data, b ≠ 0) := by
  induction x with
  | nil =>
    intro out code dt h1 h2 h3 hout
    exact ⟨by simpa [encWrite] using hout, by simpa [encWrite] using h1,
      by simpa [encWrite] using h2, by simpa [encWrite] using h3⟩
  | cons b bs ih =>
    intro out code dt h1 h2 h3 hout
    rw [encWrite, encWriteByte_zero]
    have hgrp : GoodChunk (code :: dt) := ⟨code, dt, rfl, by omega, h2, h1.symm, h3⟩
    have hone : GoodChunk [1] := ⟨1, [], rfl, by omega, by omega, by simp, by simp⟩
    by_cases h255 : code = 0xff <;> by_cases hb : b = 0 <;>
      simp only [h255, hb, if_true, ite_true, if_false, ite_false]
    · refine ih (out ++ [(0xff : Nat) :: dt] ++ [[1]]) 1 [] rfl (by norm_num) (by simp) ?_
      intro g hg
      rcases List.mem_append.mp hg with hg | hg
      · rcases List.mem_append.mp hg with hg | hg
        · exact hout g hg
        · simp at hg
          subst hg
          exact h255 ▸ hgrp
      · simp at hg
        subst hg
        exact hone
    · refine ih (out ++ [(0xff : Nat) :: dt]) 2 [b] rfl (by norm_num)
        (by intro c hc; simp at hc; subst hc; exact hb) ?_
      intro g hg
      rcases List.mem_append.mp hg with hg | hg
      · exact hout g hg
      · simp at hg
        subst hg
        exact h255 ▸ hgrp
    · refine ih (out ++ [code :: dt]) 1 [] rfl (by norm_num) (by simp) ?_
      intro g hg
      rcases List.mem_append.mp hg with hg | hg
      · exact hout g hg
      · simp at hg
        subst hg
        exact hgrp
    · refine ih out (code + 1) (dt ++ [b]) (by simp [h1]) (by omega)
        (by intro c hc; rcases List.mem_append.mp hc with h | h
            · exact h3 c h
            · simp at h; subst h; exact hb) hout

/-- chunks_good: every chunk of a sentinel-0 one-shot encoding is a
well-formed group. -/
lemma chunks_good (x : List Nat) :
    ∀ g ∈ encChunks x ⟨0, false, false⟩, GoodChunk g := by
  unfold encChunks encInit
  obtain ⟨hout, hc1, hc2, hc3⟩ :=
    encWrite_good x [] 1 [] rfl (by norm_num) (by simp) (by simp)
  rw [encFinish_zero_true_nored]
  intro g hg
  simp only [Bool.false_eq_true, if_false, List.mem_append, List.mem_singleton] at hg
  rcases hg with hg | hg
  · exact hout g hg
  · subst hg
    exact ⟨_, _, rfl, by omega, hc2, hc1.symm, hc3⟩

/-- encode_dc0: at sentinel 0, delimiterOnClose only appends one 0 byte. -/
lemma encode_dc0 (x : List Nat) :
    Encode x ⟨0, true, false⟩ = Encode x ⟨0, false, false⟩ ++ [0] := by
  unfold Encode encChunks encInit
  rw [encWrite_cfg0 true false, encFinish_zero_true_nored, encFinish_zero_true_nored]
  simp

lemma xor_lt_256 (a b : Nat) (ha : a < 256) (hb : b < 256) : a ^^^ b < 256 := by
  have h : Nat.bitwise bne a b < 2 ^ 8 :=
    Nat.bitwise_lt (by norm_num; omega) (by norm_num; omega)
  simpa using h

set_option maxRecDepth 8192 in
lemma header_le_maxCode (s n : Nat) (hs : s < 256) (hn0 : 0 < n) (hn : n ≤ 255) :
    n ^^^ s ≤ maxCode s := by
  by_cases h255 : s = 0xff
  · subst h255
    have hball : ∀ m : Nat, m < 256 → m ≠ 0 → m ^^^ 255 ≤ 254 := by decide
    simpa [maxCode] using hball n (by omega) (by omega)
  · have := xor_lt_256 n s (by omega) hs
    simp only [maxCode, h255, if_false]
    omega

/-- encWrite_replicate: a run of identical nonzero bytes that fits in the
current group is just appended, bumping the length byte. -/
lemma encWrite_replicate (cfg : Config) (k : Nat) (b : Nat) (hb : b ≠ 0) :
    ∀ (out : List (List Nat)) (code : Nat) (dt : List Nat), code + k ≤ 255 →
    encWrite cfg ⟨out, code, dt⟩ (List.replicate k b)
      = ⟨out, code + k, dt ++ List.replicate k b⟩ := by
  induction k with
  | zero =>
    intro out code dt _
    simp [encWrite]
  | succ k ih =>
    intro out code dt hle
    rw [List.replicate_succ, encWrite]
    have hstep : encWriteByte cfg ⟨out, code, dt⟩ b = ⟨out, code + 1, dt ++ [b]⟩ := by
      unfold encWriteByte
      simp [show code ≠ 0xff from by omega, hb, Delimiter]
    rw [hstep, ih out (code + 1) (dt ++ [b]) (by omega)]
    have h1 : code + 1 + k = code + (k + 1) := by omega
    have h2 : (dt ++ [b]) ++ List.replicate k b = dt ++ List.replicate (k + 1) b := by
      rw [List.append_assoc, List.singleton_append, ← List.replicate_succ]
    rw [h1, h2, List.replicate_succ]

/-- chunks_rep254: 254 identical nonzero bytes fill exactly one group. -/
lemma chunks_rep254 (b : Nat) (hb : b ≠ 0) :
    encChunks (List.replicate 254 b) ⟨0, false, false⟩
      = [(0xff : Nat) :: List.replicate 254 b] := by
  unfold encChunks encInit
  rw [encWrite_replicate ⟨0, false, false⟩ 254 b hb [] 1 [] (by norm_num),
    encFinish_zero_true_nored]
  norm_num

/-- chunks_rep255: a 255th identical nonzero byte starts a second group. -/
lemma chunks_rep255 (b : Nat) (hb : b ≠ 0) :
    encChunks (List.replicate 255 b) ⟨0, false, false⟩
      = [(0xff : Nat) :: List.replicate 254 b, [2, b]] := by
  unfold encChunks encInit
  rw [show (255 : Nat) = 254 + 1 from rfl, List.replicate_succ', encWrite_append,
    encWrite_replicate ⟨0, false, false⟩ 254 b hb [] 1 [] (by norm_num)]
  rw [encWrite, encWriteByte_zero]
  norm_num [hb]
  rw [encWrite, encFinish_zero_true_nored]
  norm_num

/-- maxCode_attained: some payload makes the encoder emit maxCode s as a
length byte. -/
lemma maxCode_attained (s : Nat) (hs : s < 256) :
    ∃ (x : List Nat) (g : List Nat), g ∈ encChunks x ⟨s, false, false⟩ ∧
      ∃ t, g = maxCode s :: t := by
  by_cases h255 : s = 0xff
  · subst h255
    exact ⟨[], [0xfe], by decide, [], by decide⟩
  · have hne : (255 : Nat) ^^^ s ≠ 0 := Nat.xor_ne_zero.mpr (fun h => h255 h.symm)
    have hxlt : (255 : Nat) ^^^ s < 256 := xor_lt_256 255 s (by norm_num) hs
    refine ⟨List.replicate ((255 ^^^ s) - 1) 1, ?_⟩
    rw [encChunks_xor]
    unfold encChunks encInit
    rw [encWrite_replicate ⟨0, false, false⟩ _ 1 (by norm_num) [] 1 [] (by omega),
      encFinish_zero_true_nored]
    refine ⟨List.map (· ^^^ s)
      ((1 + ((255 ^^^ s) - 1)) :: List.replicate ((255 ^^^ s) - 1) 1), by simp, ?_⟩
    refine ⟨List.map (· ^^^ s) (List.replicate ((255 ^^^ s) - 1) 1), ?_⟩
    rw [List.map_cons]
    have h1 : 1 + ((255 ^^^ s) - 1) = 255 ^^^ s := by omega
    rw [h1, Nat.xor_cancel_right]
    simp [maxCode, h255]

/-- C1: for every byte sequence x and every sentinel value s in [0, 255],
the one-shot Decode of the one-shot Encode returns exactly x with no
error (no end-of-frame signal arises since the encoding is sentinel free). -/
theorem claim_C1_roundtrip (x : List Nat) (s : Nat)
    (hx : ∀ b ∈ x, b < 256) (hs : s < 256) :
    Decode (Encode x ⟨s, false, false⟩) ⟨s, false, false⟩ = (x, none) := by
  rw [Encode_xor, Decode_xor, map_xor_map_xor]
  exact roundtrip0 x

theorem claim_C1_roundtrip_witness :
    ((∀ b ∈ [49, 0, 255, 7], b < 256) ∧ (5 : Nat) < 256) ∧
    Decode (Encode [49, 0, 255, 7] ⟨5, false, false⟩) ⟨5, false, false⟩
      = ([49, 0, 255, 7], none) :=
  ⟨⟨by decide, by decide⟩, claim_C1_roundtrip [49, 0, 255, 7] 5 (by decide) (by decide)⟩

/-- C2: the output of Encode with sentinel s never contains the byte s;
the only literal sentinel emitted is the terminator explicitly appended
under delimiterOnClose. -/
theorem claim_C2_sentinel_freedom (x : List Nat) (s : Nat) :
    s ∉ Encode x ⟨s, false, false⟩ ∧
    Encode x ⟨s, true, false⟩ = Encode x ⟨s, false, false⟩ ++ [s] := by
  constructor
  · intro hmem
    rw [Encode_xor] at hmem
    obtain ⟨b0, hb0, hxor⟩ := List.mem_map.mp hmem
    have hb0n : b0 ≠ 0 := by
      unfold Encode at hb0
      obtain ⟨g, hgmem, hbg⟩ := List.mem_flatten.mp hb0
      obtain ⟨n, ds, hgeq, hn0, _, _, hds⟩ := chunks_good x g hgmem
      subst hgeq
      rcases List.mem_cons.mp hbg with h | h
      · subst h; omega
      · exact hds b0 h
    apply hb0n
    have h0 : b0 ^^^ s = 0 ^^^ s := by rw [hxor, Nat.zero_xor]
    exact Nat.xor_left_inj.mp h0
  · rw [Encode_xor s true false, encode_dc0, List.map_append, ← Encode_xor]
    simp [Nat.zero_xor]

/-- C3: the COBS/R encoding is never longer than the standard encoding,
and the one-shot reduced Decode (the Decoder driven over the bytes and
then closed) reproduces exactly x. -/
theorem claim_C3_reduced (x : List Nat) :
    (Encode x ⟨0, false, true⟩).length ≤ (Encode x ⟨0, false, false⟩).length ∧
    Decode (Encode x ⟨0, false, true⟩) ⟨0, false, true⟩ = (x, none) :=
  ⟨encode_reduced_len x, roundtripR x⟩

/-- C4 counterexample: the claim says Decode of a well-formed frame that
ends in a literal sentinel reports success, but Decode of [0x01, 0x00]
(the encoding of the empty payload followed by the sentinel) returns the
EOD signal, not a nil result. -/
theorem claim_C4_counterexample :
    Decode (Encode [] ⟨0, false, false⟩ ++ [0]) ⟨0, false, false⟩ = ([], some Derr.eod) ∧
    (Decode (Encode [] ⟨0, false, false⟩ ++ [0]) ⟨0, false, false⟩).2 ≠ none := by
  decide

/-- C4 amended: the one-shot Decode propagates the graceful EOD signal to
its caller: for every payload and sentinel, decoding the encoding followed
by one literal sentinel byte returns the full payload together with the
EOD value (a non-nil result), not a nil result. -/
theorem claim_C4_amended (x : List Nat) (s : Nat) :
    Decode (Encode x ⟨s, false, false⟩ ++ [s]) ⟨s, false, false⟩ = (x, some Derr.eod) := by
  rw [Decode_xor]
  have hmap : (Encode x ⟨s, false, false⟩ ++ [s]).map (· ^^^ s)
      = Encode x ⟨0, false, false⟩ ++ [0] := by
    rw [List.map_append, Encode_xor, map_xor_map_xor]
    simp [Nat.xor_self]
  rw [hmap]
  obtain ⟨dcode, h⟩ := dec_enc0 x
  unfold Decode
  rw [decWrite_append _ _ _ _ _ h]
  have hlast : decWrite ⟨0, false, false⟩ ⟨x, dcode, 0⟩ [0]
      = (⟨x, 0xff, 0⟩, some Derr.eod) := by
    simp [decWrite, decWriteByte, flushReduced, Delimiter]
  rw [hlast]

/-- C5: with the default sentinel, decoding [0x02] reports the incomplete
frame error and decoding [0x02, 0x00] reports the unexpected EOD error. -/
theorem claim_C5_malformed :
    Decode [2] ⟨0, false, false⟩ = ([], some Derr.incompleteFrame) ∧
    Decode [2, 0] ⟨0, false, false⟩ = ([], some Derr.unexpectedEOD) := by
  decide

/-- C6 counterexample: the claim says a group carries at most 253 data
bytes when the sentinel is 0xFF (at most 254 bytes per group on the
wire), but encoding 254 nonzero bytes under sentinel 0xFF emits a single
255 byte group (254 data bytes). -/
theorem claim_C6_counterexample :
    ∃ g ∈ encChunks (List.replicate 254 1) ⟨0xff, false, false⟩, 254 < g.length := by
  rw [encChunks_xor, chunks_rep254 1 (by norm_num)]
  refine ⟨List.map (· ^^^ 255) ((0xff : Nat) :: List.replicate 254 1), ?_, ?_⟩
  · simp only [List.map_cons, List.map_nil, List.mem_singleton]
  · simp only [List.length_map, List.length_cons, List.length_replicate]
    omega

/-- C6 amended: for every sentinel s, every emitted group has at most 255
bytes (so at most 254 data bytes, for every sentinel, 0xFF included), its
length byte never exceeds maxCode s, and maxCode s is attained for some
payload; the 253 data byte limit for sentinel 0xFF claimed from the
historical direct-comparison variant does not hold. -/
theorem claim_C6_amended (s : Nat) (hs : s < 256) :
    (∀ (x : List Nat), ∀ g ∈ encChunks x ⟨s, false, false⟩,
      g.length ≤ 255 ∧ ∀ h t, g = h :: t → h ≤ maxCode s) ∧
    (∃ (x : List Nat) (g : List Nat), g ∈ encChunks x ⟨s, false, false⟩ ∧
      ∃ t, g = maxCode s :: t) := by
  constructor
  · intro x g hg
    rw [encChunks_xor] at hg
    obtain ⟨g0, hg0, rfl⟩ := List.mem_map.mp hg
    obtain ⟨n, ds, rfl, hn0, hn255, hlen, hds⟩ := chunks_good x g0 hg0
    constructor
    · simp only [List.map_cons, List.length_cons, List.length_map]
      omega
    · intro h t hht
      rw [List.map_cons] at hht
      injection hht with h1 h2
      subst h1
      exact header_le_maxCode s n hs hn0 hn255
  · exact maxCode_attained s hs

theorem claim_C6_amended_witness :
    (0 : Nat) < 256 ∧
    ((∀ (x : List Nat), ∀ g ∈ encChunks x ⟨0, false, false⟩,
      g.length ≤ 255 ∧ ∀ h t, g = h :: t → h ≤ maxCode 0) ∧
    (∃ (x : List Nat) (g : List Nat), g ∈ encChunks x ⟨0, false, false⟩ ∧
      ∃ t, g = maxCode 0 :: t)) :=
  ⟨by decide, claim_C6_amended 0 (by decide)⟩

/-- C7 counterexample: with sentinel 2, feeding the fresh decoder the wire
byte 3 (a new length byte) leaves codeIndex = 0, while the claim predicts
2 (reading c as the wire byte: 3 > 2, so one decrement) or 1 (reading c
as the unmasked byte 1: 1 is not greater than 2, so no decrement). -/
theorem claim_C7_counterexample :
    (decWriteByte ⟨2, false, false⟩ ⟨[], 0xff, 0⟩ 3).1.codeIndex = 0 ∧
    (decWriteByte ⟨2, false, false⟩ ⟨[], 0xff, 0⟩ 3).1.codeIndex ≠ 2 ∧
    (decWriteByte ⟨2, false, false⟩ ⟨[], 0xff, 0⟩ 3).1.codeIndex ≠ 1 := by
  decide

/-- C7 amended: on a new length byte the decoder sets codeIndex to the
sentinel-unmasked byte and always decrements it by exactly one; no
numeric comparison with the sentinel is involved. -/
theorem claim_C7_amended (cfg : Config) (d : DecState) (c0 : Nat)
    (hci : d.codeIndex = 0) (hc : c0 ≠ cfg.sentinel) :
    decWriteByte cfg d c0 =
      (⟨d.out ++ (if d.code ≠ 0xff then [Delimiter] else []),
        c0 ^^^ cfg.sentinel, (c0 ^^^ cfg.sentinel) - 1⟩, none) := by
  have hne : c0 ^^^ cfg.sentinel ≠ 0 := Nat.xor_ne_zero.mpr hc
  unfold decWriteByte
  by_cases h : d.code = 0xff <;> simp [hne, hci, h, Delimiter]

theorem claim_C7_amended_witness :
    ((⟨[], 0xff, 0⟩ : DecState).codeIndex = 0 ∧
      (3 : Nat) ≠ (⟨2, false, false⟩ : Config).sentinel) ∧
    decWriteByte ⟨2, false, false⟩ ⟨[], 0xff, 0⟩ 3 =
      (⟨([] : List Nat) ++ (if (0xff : Nat) ≠ 0xff then [Delimiter] else []),
        3 ^^^ 2, (3 ^^^ 2) - 1⟩, none) :=
  ⟨⟨rfl, by decide⟩,
    claim_C7_amended ⟨2, false, false⟩ ⟨[], 0xff, 0⟩ 3 rfl (by decide)⟩

/-- C8: with the default sentinel, the empty payload encodes to [0x01]; a
run of exactly 254 nonzero bytes fills exactly one group with length byte
0xFF; a 255th consecutive nonzero byte forces a second group. -/
theorem claim_C8_boundary (b : Nat) (hb : b ≠ 0) :
    Encode [] ⟨0, false, false⟩ = [1] ∧
    encChunks (List.replicate 254 b) ⟨0, false, false⟩
      = [(0xff : Nat) :: List.replicate 254 b] ∧
    encChunks (List.replicate 255 b) ⟨0, false, false⟩
      = [(0xff : Nat) :: List.replicate 254 b, [2, b]] :=
  ⟨by decide, chunks_rep254 b hb, chunks_rep255 b hb⟩

theorem claim_C8_boundary_witness :
    (1 : Nat) ≠ 0 ∧
    (Encode [] ⟨0, false, false⟩ = [1] ∧
    encChunks (List.replicate 254 1) ⟨0, false, false⟩
      = [(0xff : Nat) :: List.replicate 254 1] ∧
    encChunks (List.replicate 255 1) ⟨0, false, false⟩
      = [(0xff : Nat) :: List.replicate 254 1, [2, 1]]) :=
  ⟨by decide, claim_C8_boundary 1 (by decide)⟩

/-- C9: with the default sentinel, the payload 12345, a zero byte, 6789
encodes to exactly 06 12345 05 6789, and decoding those bytes reproduces
the payload including the embedded zero with no end-of-frame signal. -/
theorem claim_C9_embedded_zero :
    Encode [0x31, 0x32, 0x33, 0x34, 0x35, 0x00, 0x36, 0x37, 0x38, 0x39] ⟨0, false, false⟩
      = [0x06, 0x31, 0x32, 0x33, 0x34, 0x35, 0x05, 0x36, 0x37, 0x38, 0x39] ∧
    Decode [0x06, 0x31, 0x32, 0x33, 0x34, 0x35, 0x05, 0x36, 0x37, 0x38, 0x39] ⟨0, false, false⟩
      = ([0x31, 0x32, 0x33, 0x34, 0x35, 0x00, 0x36, 0x37, 0x38, 0x39], none) := by
  decide

/-- C10: encoding with sentinel s equals the default-sentinel encoding
XOR-masked with s, group by group and byte by byte, and the decoder first
XORs every incoming byte with s: decoding with sentinel s equals
default-sentinel decoding of the XOR-masked input. -/
theorem claim_C10_xor_refinement (x y : List Nat) (s : Nat) :
    encChunks x ⟨s, false, false⟩
      = (encChunks x ⟨0, false, false⟩).map (List.map (· ^^^ s)) ∧
    Encode x ⟨s, false, false⟩ = (Encode x ⟨0, false, false⟩).map (· ^^^ s) ∧
    Decode y ⟨s, false, false⟩ = Decode (y.map (· ^^^ s)) ⟨0, false, false⟩ :=
  ⟨encChunks_xor s false false x, Encode_xor s false false x, Decode_xor s false false y⟩

end Cobs
